import Mathlib

/-!
Shallow embedding of the bounded circular queue implemented by the
`QueueSimulator` component. The queue state mirrors the `QueueState`
interface of the source: a backing array of `number | null` cells
(`List (Option Int)`), a `front` index, a `rear` index that starts at the
sentinel `-1`, the current `size` and the fixed capacity `maxSize`.
Operations are translated from the source callbacks: `initializeQueue`,
`enqueue`, `dequeue`, `getFront`, `getRear`, `checkIsEmpty`, `checkIsFull`
and `resetQueue`. Failure paths (early returns with a status message) are
modelled by `Option`: `none` means the operation reported an error and
left the state untouched. JavaScript's `%` on numbers is the truncated
remainder, embedded as `Int.tmod`; array writes `a[i] = v` on an in-bounds
index are `List.set`.
-/

namespace QueueSim

/-- The `QueueState` interface of the source: `data` holds
`number | null` cells, `front` and `rear` are indices into `data`
(`rear` starts at the sentinel `-1`, hence `Int`), `size` is the number
of stored elements and `maxSize` the fixed capacity. -/
structure QueueState where
  data : List (Option Int)
  front : Nat
  rear : Int
  size : Nat
  maxSize : Nat

deriving instance DecidableEq for QueueState

/-- The state installed by the component on creation (`useState` initial
value): empty backing array, `front = 0`, `rear = -1`, `size = 0`,
`maxSize = 0`. -/
def initialState : QueueState :=
  { data := [], front := 0, rear := -1, size := 0, maxSize := 0 }

/-- `initializeQueue`: rejects a capacity that is `<= 0` or `> 20`
(the source also rejects `NaN`, a parse failure that never reaches the
integer domain of this model); otherwise installs a fresh state with
`size` cells filled with `null`, `front = 0`, `rear = -1`. -/
def initializeQueue (capacity : Int) : Option QueueState :=
  if capacity ≤ 0 ∨ 20 < capacity then none
  else some { data := List.replicate capacity.toNat none,
              front := 0, rear := -1, size := 0,
              maxSize := capacity.toNat }

/-- `enqueue`: fails when `size >= maxSize`; otherwise computes
`newRear = (rear + 1) % maxSize` (JavaScript truncated remainder), writes
the value there, moves `rear` and increments `size`. The returned index
is the position reported in the status message
(`Enqueued ... at position newRear`). -/
def enqueue (value : Int) (s : QueueState) : Option (Int × QueueState) :=
  if s.maxSize ≤ s.size then none
  else
    let newRear : Int := Int.tmod (s.rear + 1) (s.maxSize : Int)
    some (newRear,
      { s with data := s.data.set newRear.toNat (some value),
               rear := newRear,
               size := s.size + 1 })

/-- `dequeue`: fails when `size === 0`; otherwise returns the cell at
`front` (the `dequeuedValue` of the source, still of type
`number | null`), clears that cell, advances
`front = (front + 1) % maxSize` and decrements `size`. The source applies
the state update inside a 300 ms animation timeout; per the spec the delay
is presentation only, so the model applies it immediately. -/
def dequeue (s : QueueState) : Option (Option Int × QueueState) :=
  if s.size = 0 then none
  else
    some (s.data.getD s.front none,
      { s with data := s.data.set s.front none,
               front := (s.front + 1) % s.maxSize,
               size := s.size - 1 })

/-- `getFront` (the spec's `peekFront`): fails when `size === 0`,
otherwise reports the cell at `front` without touching the state. -/
def getFront (s : QueueState) : Option (Option Int) :=
  if s.size = 0 then none else some (s.data.getD s.front none)

/-- `getRear` (the spec's `peekRear`): fails when `size === 0`,
otherwise reports the cell at `rear` without touching the state. -/
def getRear (s : QueueState) : Option (Option Int) :=
  if s.size = 0 then none else some (s.data.getD s.rear.toNat none)

/-- `checkIsEmpty`: reports whether `size === 0`. -/
def isEmpty (s : QueueState) : Bool := s.size == 0

/-- `checkIsFull`: reports whether `size >= maxSize`. -/
def isFull (s : QueueState) : Bool := decide (s.maxSize ≤ s.size)

/-- `showSize`: reports the `size/maxSize` pair. -/
def currentSize (s : QueueState) : Nat × Nat := (s.size, s.maxSize)

/-- `resetQueue`: returns to the creation state (empty array, `front = 0`,
`rear = -1`, `size = 0`, `maxSize = 0`). -/
def resetQueue : QueueState :=
  { data := [], front := 0, rear := -1, size := 0, maxSize := 0 }

/-- User-initiated operations of the simulator: enqueue a value, dequeue,
and the five inspection buttons that never change the queue state. -/
inductive Op where
  | enq : Int → Op
  | deq : Op
  | peekF : Op
  | peekR : Op
  | emptyQ : Op
  | fullQ : Op
  | sizeQ : Op

deriving instance DecidableEq for Op

/-- One operation applied the way the component applies it: a failing
`enqueue`/`dequeue` shows a message and leaves the state as it was;
inspection operations never change the state. -/
def stepTotal (op : Op) (s : QueueState) : QueueState :=
  match op with
  | Op.enq v =>
    match enqueue v s with
    | none => s
    | some (_, s') => s'
  | Op.deq =>
    match dequeue s with
    | none => s
    | some (_, s') => s'
  | _ => s

/-- Apply a sequence of operations in order, keeping the state on failed
operations, exactly as the live component does. -/
def runAll (ops : List Op) (s : QueueState) : QueueState :=
  ops.foldl (fun t op => stepTotal op t) s

/-- A state is reachable when some capacity initializes the queue and some
sequence of user operations leads from the fresh queue to it. -/
def Reachable (s : QueueState) : Prop :=
  ∃ (c : Int) (s₀ : QueueState) (ops : List Op),
    initializeQueue c = some s₀ ∧ runAll ops s₀ = s

/-- Disciplined run: applies the operations in order but returns `none`
as soon as an `enqueue` hits a full queue or a `dequeue` hits an empty
queue, so a `some` result certifies that every `enqueue` ran with
`size < maxSize` and every `dequeue` with `size > 0`. Collects the values
returned by the successful dequeues in call order. -/
def run : QueueState → List Op → Option (List (Option Int) × QueueState)
  | s, [] => some ([], s)
  | s, Op.enq v :: ops =>
    match enqueue v s with
    | none => none
    | some (_, s') => run s' ops
  | s, Op.deq :: ops =>
    match dequeue s with
    | none => none
    | some (x, s') => Option.map (fun p => (x :: p.1, p.2)) (run s' ops)
  | s, Op.peekF :: ops => run s ops
  | s, Op.peekR :: ops => run s ops
  | s, Op.emptyQ :: ops => run s ops
  | s, Op.fullQ :: ops => run s ops
  | s, Op.sizeQ :: ops => run s ops

/-- The values passed to `enqueue` in an operation sequence, in call
order. -/
def enqInputs : List Op → List Int
  | [] => []
  | Op.enq v :: ops => v :: enqInputs ops
  | _ :: ops => enqInputs ops

/-- Abstraction of the circular buffer to the logical queue contents:
the cells visited by walking `size` steps from `front`, stepping
`+1 mod maxSize`, oldest first. -/
def absQueue (s : QueueState) : List (Option Int) :=
  (List.range s.size).map (fun i => s.data.getD ((s.front + i) % s.maxSize) none)

/-- Number of occupied (non-`null`) cells of the backing array. -/
def occupiedCount (s : QueueState) : Nat :=
  s.data.countP (fun o => o.isSome)

/-- Well-formedness invariant of an initialized queue, maintained by every
operation: positive capacity, backing array of exactly `maxSize` cells,
`size` within bounds, `front` in range, `rear` either the sentinel `-1`
of a fresh queue or congruent to `front + size - 1` modulo the capacity,
the occupied-cell count equal to `size`, and the occupied cells exactly
the `size` cells reached by walking from `front`. -/
structure WF (s : QueueState) : Prop where
  cap_pos : 0 < s.maxSize
  data_len : s.data.length = s.maxSize
  size_le : s.size ≤ s.maxSize
  front_lt : s.front < s.maxSize
  rear_eq : s.rear = (((s.front + s.size + s.maxSize - 1) % s.maxSize : Nat) : Int) ∨
    (s.rear = -1 ∧ s.size = 0 ∧ s.front = 0)
  count_eq : occupiedCount s = s.size
  occ : ∀ j : Nat, s.data.getD j none ≠ none ↔
    ∃ i : Nat, i < s.size ∧ (s.front + i) % s.maxSize = j

theorem getD_set_self (l : List (Option Int)) (j : Nat) (a : Option Int)
    (h : j < l.length) : (l.set j a).getD j none = a := by
  induction l generalizing j with
  | nil => simp at h
  | cons b l ih =>
    cases j with
    | zero => simp
    | succ j => simpa using ih j (by simpa using h)

theorem getD_set_ne (l : List (Option Int)) (i j : Nat) (a : Option Int)
    (h : i ≠ j) : (l.set i a).getD j none = l.getD j none := by
  induction l generalizing i j with
  | nil => simp
  | cons b l ih =>
    cases i with
    | zero =>
      cases j with
      | zero => exact absurd rfl h
      | succ j => simp
    | succ i =>
      cases j with
      | zero => simp
      | succ j => simpa using ih i j (fun hc => h (by rw [hc]))

theorem getD_replicate (n j : Nat) :
    (List.replicate n (none : Option Int)).getD j none = none := by
  induction n generalizing j with
  | zero => simp
  | succ n ih =>
    cases j with
    | zero => simp [List.replicate]
    | succ j => simp [List.replicate, ih j]

theorem countP_replicate_none (n : Nat) :
    (List.replicate n (none : Option Int)).countP (fun o => o.isSome) = 0 := by
  induction n with
  | zero => simp
  | succ n ih => simp [List.replicate, List.countP_cons, ih]

theorem countP_set_some (l : List (Option Int)) (j : Nat) (v : Int)
    (hlen : j < l.length) (hn : l.getD j none = none) :
    (l.set j (some v)).countP (fun o => o.isSome) =
      l.countP (fun o => o.isSome) + 1 := by
  induction l generalizing j with
  | nil => simp at hlen
  | cons b l ih =>
    cases j with
    | zero =>
      have hb : b = none := by simpa using hn
      subst hb
      simp [List.countP_cons]
    | succ j =>
      have hrec := ih j (by simpa using hlen) (by simpa using hn)
      simp only [List.set, List.countP_cons, hrec]
      omega

theorem countP_set_none (l : List (Option Int)) (j : Nat)
    (hs : l.getD j none ≠ none) :
    (l.set j none).countP (fun o => o.isSome) + 1 =
      l.countP (fun o => o.isSome) := by
  induction l generalizing j with
  | nil => simp at hs
  | cons b l ih =>
    cases j with
    | zero =>
      obtain ⟨v, hv⟩ : ∃ v, b = some v := by
        cases b with
        | none => simp at hs
        | some v => exact ⟨v, rfl⟩
      subst hv
      simp [List.countP_cons]
    | succ j =>
      have hrec := ih j (by simpa using hs)
      simp only [List.set, List.countP_cons]
      omega

theorem mod_inj_of_lt (cap f i k : Nat) (hi : i < cap) (hk : k < cap)
    (h : (f + i) % cap = (f + k) % cap) : i = k := by
  have h2 : Nat.ModEq cap i k := Nat.ModEq.add_left_cancel' f h
  rwa [Nat.ModEq, Nat.mod_eq_of_lt hi, Nat.mod_eq_of_lt hk] at h2

theorem succ_mod_eq (cap f sz : Nat) (hcap : 0 < cap) :
    ((f + sz + cap - 1) % cap + 1) % cap = (f + sz) % cap := by
  rw [Nat.mod_add_mod]
  have h1 : f + sz + cap - 1 + 1 = f + sz + cap := by omega
  rw [h1, Nat.add_mod_right]

theorem enqueue_eq (v : Int) (s : QueueState) (hlt : s.size < s.maxSize)
    (hw : WF s) :
    enqueue v s = some ((((s.front + s.size) % s.maxSize : Nat) : Int),
      { s with data := s.data.set ((s.front + s.size) % s.maxSize) (some v),
               rear := (((s.front + s.size) % s.maxSize : Nat) : Int),
               size := s.size + 1 }) := by
  unfold enqueue
  rw [if_neg (by omega)]
  have hj : Int.tmod (s.rear + 1) (s.maxSize : Int) =
      (((s.front + s.size) % s.maxSize : Nat) : Int) := by
    rcases hw.rear_eq with hr | ⟨hr, hsz, hf⟩
    · rw [hr]
      have hcast : ((((s.front + s.size + s.maxSize - 1) % s.maxSize : Nat) : Int) + 1)
          = (((s.front + s.size + s.maxSize - 1) % s.maxSize + 1 : Nat) : Int) := by
        push_cast
        ring
      rw [hcast, Int.tmod_eq_emod (by positivity) (by positivity), ← Int.natCast_mod,
        succ_mod_eq _ _ _ hw.cap_pos]
    · rw [hr, hsz, hf]
      norm_num
  rw [hj]
  simp only [Int.toNat_natCast]

theorem dequeue_eq (s : QueueState) (hpos : 0 < s.size) :
    dequeue s = some (s.data.getD s.front none,
      { s with data := s.data.set s.front none,
               front := (s.front + 1) % s.maxSize,
               size := s.size - 1 }) := by
  unfold dequeue
  rw [if_neg (by omega)]

theorem wf_initializeQueue (c : Int) (s : QueueState)
    (h : initializeQueue c = some s) : WF s := by
  unfold initializeQueue at h
  by_cases hc : c ≤ 0 ∨ 20 < c
  · rw [if_pos hc] at h
    exact absurd h (by simp)
  · rw [if_neg hc] at h
    push_neg at hc
    injection h with h
    subst h
    refine ⟨?_, by simp, by simp, ?_, Or.inr ⟨rfl, rfl, rfl⟩, ?_, ?_⟩
    · show 0 < c.toNat
      omega
    · show 0 < c.toNat
      omega
    · simp [occupiedCount, countP_replicate_none c.toNat]
    · intro j
      simp [getD_replicate]

theorem wf_enqueue (v : Int) (s : QueueState) (j : Int) (s' : QueueState)
    (hw : WF s) (h : enqueue v s = some (j, s')) : WF s' := by
  have hlt : s.size < s.maxSize := by
    by_contra hge
    unfold enqueue at h
    rw [if_pos (by omega)] at h
    exact absurd h (by simp)
  rw [enqueue_eq v s hlt hw] at h
  simp only [Option.some.injEq, Prod.mk.injEq] at h
  obtain ⟨hj, hs'⟩ := h
  subst hs'
  have hjn : (s.front + s.size) % s.maxSize < s.maxSize :=
    Nat.mod_lt _ hw.cap_pos
  have hempty : s.data.getD ((s.front + s.size) % s.maxSize) none = none := by
    by_contra hne
    obtain ⟨i, hi, hie⟩ := (hw.occ _).mp hne
    have : i = s.size :=
      mod_inj_of_lt s.maxSize s.front i s.size (by omega) hlt hie
    omega
  refine ⟨hw.cap_pos, ?_, by show s.size + 1 ≤ s.maxSize; omega, hw.front_lt, ?_, ?_, ?_⟩
  · show (s.data.set _ _).length = s.maxSize
    rw [List.length_set, hw.data_len]
  · left
    show (((s.front + s.size) % s.maxSize : Nat) : Int) = _
    congr 1
    rw [show s.front + (s.size + 1) + s.maxSize - 1 = s.front + s.size + s.maxSize from by
      have := hw.cap_pos; omega, Nat.add_mod_right]
  · show occupiedCount _ = s.size + 1
    unfold occupiedCount
    show (s.data.set _ _).countP _ = s.size + 1
    rw [countP_set_some _ _ _ (by rw [hw.data_len]; exact hjn) hempty]
    rw [show s.data.countP (fun o => o.isSome) = occupiedCount s from rfl, hw.count_eq]
  · intro jj
    show (s.data.set _ _).getD jj none ≠ none ↔ ∃ i, i < s.size + 1 ∧ (s.front + i) % s.maxSize = jj
    by_cases hjj : jj = (s.front + s.size) % s.maxSize
    · subst hjj
      rw [getD_set_self _ _ _ (by rw [hw.data_len]; exact hjn)]
      constructor
      · intro _
        exact ⟨s.size, by omega, rfl⟩
      · intro _
        simp
    · rw [getD_set_ne _ _ _ _ (fun he => hjj he.symm), hw.occ jj]
      constructor
      · rintro ⟨i, hi, hie⟩
        exact ⟨i, by omega, hie⟩
      · rintro ⟨i, hi, hie⟩
        rcases Nat.lt_or_ge i s.size with h1 | h1
        · exact ⟨i, h1, hie⟩
        · have hi2 : i = s.size := by omega
          subst hi2
          exact absurd hie.symm hjj

theorem wf_dequeue (s : QueueState) (x : Option Int) (s' : QueueState)
    (hw : WF s) (h : dequeue s = some (x, s')) : WF s' := by
  have hpos : 0 < s.size := by
    by_contra hz
    unfold dequeue at h
    rw [if_pos (by omega)] at h
    exact absurd h (by simp)
  rw [dequeue_eq s hpos] at h
  simp only [Option.some.injEq, Prod.mk.injEq] at h
  obtain ⟨hx, hs'⟩ := h
  subst hs'
  have hcap := hw.cap_pos
  have hfl := hw.front_lt
  have hsl := hw.size_le
  have hocc_front : s.data.getD s.front none ≠ none := by
    rw [hw.occ]
    exact ⟨0, hpos, by rw [Nat.add_zero, Nat.mod_eq_of_lt hfl]⟩
  refine ⟨hcap, ?_, by show s.size - 1 ≤ s.maxSize; omega, ?_, ?_, ?_, ?_⟩
  · show (s.data.set _ _).length = s.maxSize
    rw [List.length_set, hw.data_len]
  · show (s.front + 1) % s.maxSize < s.maxSize
    exact Nat.mod_lt _ hcap
  · rcases hw.rear_eq with hr | ⟨_, hsz, _⟩
    · left
      show s.rear = _
      rw [hr]
      congr 1
      have hb : (s.front + 1) % s.maxSize + (s.size - 1) + s.maxSize - 1
          = (s.front + 1) % s.maxSize + (s.size + s.maxSize - 2) := by omega
      rw [show (s.front + 1) % s.maxSize + (s.size - 1) + s.maxSize - 1
            = (s.front + 1) % s.maxSize + (s.size + s.maxSize - 2) from hb,
          Nat.mod_add_mod,
          show s.front + 1 + (s.size + s.maxSize - 2) = s.front + s.size + s.maxSize - 1 from by
            omega]
    · omega
  · show occupiedCount _ = s.size - 1
    unfold occupiedCount
    show (s.data.set _ _).countP _ = s.size - 1
    have hcnt := countP_set_none s.data s.front hocc_front
    rw [show s.data.countP (fun o => o.isSome) = occupiedCount s from rfl, hw.count_eq] at hcnt
    omega
  · intro jj
    show (s.data.set _ _).getD jj none ≠ none ↔
      ∃ i, i < s.size - 1 ∧ ((s.front + 1) % s.maxSize + i) % s.maxSize = jj
    by_cases hjj : jj = s.front
    · subst hjj
      rw [getD_set_self _ _ _ (by rw [hw.data_len]; exact hfl)]
      apply iff_of_false (by simp)
      rintro ⟨i, hi, hie⟩
      rw [Nat.mod_add_mod] at hie
      have h0 : (s.front + (1 + i)) % s.maxSize = (s.front + 0) % s.maxSize := by
        rw [Nat.add_zero, Nat.mod_eq_of_lt hfl,
          show s.front + (1 + i) = s.front + 1 + i from by ring]
        exact hie
      have := mod_inj_of_lt s.maxSize s.front (1 + i) 0 (by omega) (by omega) h0
      omega
    · rw [getD_set_ne _ _ _ _ (fun he => hjj he.symm), hw.occ jj]
      constructor
      · rintro ⟨i, hi, hie⟩
        cases i with
        | zero =>
          rw [Nat.add_zero, Nat.mod_eq_of_lt hfl] at hie
          exact absurd hie.symm hjj
        | succ i =>
          refine ⟨i, by omega, ?_⟩
          rw [Nat.mod_add_mod,
            show s.front + 1 + i = s.front + (i + 1) from by ring]
          exact hie
      · rintro ⟨i, hi, hie⟩
        refine ⟨i + 1, by omega, ?_⟩
        rw [Nat.mod_add_mod] at hie
        rw [show s.front + (i + 1) = s.front + 1 + i from by ring]
        exact hie

theorem wf_stepTotal (op : Op) (s : QueueState) (hw : WF s) : WF (stepTotal op s) := by
  cases op with
  | enq v =>
    cases h : enqueue v s with
    | none => simpa [stepTotal, h] using hw
    | some p =>
      have := wf_enqueue v s p.1 p.2 hw (by rw [h])
      simpa [stepTotal, h] using this
  | deq =>
    cases h : dequeue s with
    | none => simpa [stepTotal, h] using hw
    | some p =>
      have := wf_dequeue s p.1 p.2 hw (by rw [h])
      simpa [stepTotal, h] using this
  | peekF => exact hw
  | peekR => exact hw
  | emptyQ => exact hw
  | fullQ => exact hw
  | sizeQ => exact hw

theorem wf_runAll (ops : List Op) (s : QueueState) (hw : WF s) :
    WF (runAll ops s) := by
  induction ops generalizing s with
  | nil => exact hw
  | cons op ops ih => exact ih (stepTotal op s) (wf_stepTotal op s hw)

theorem reachable_wf (s : QueueState) (h : Reachable s) : WF s := by
  obtain ⟨c, s₀, ops, hinit, hrun⟩ := h
  rw [← hrun]
  exact wf_runAll ops s₀ (wf_initializeQueue c s₀ hinit)

theorem enqueue_some_size (v : Int) (s : QueueState) (j : Int) (s' : QueueState)
    (h : enqueue v s = some (j, s')) : s.size < s.maxSize := by
  by_contra hge
  unfold enqueue at h
  rw [if_pos (by omega)] at h
  exact absurd h (by simp)

theorem dequeue_some_size (s : QueueState) (x : Option Int) (s' : QueueState)
    (h : dequeue s = some (x, s')) : 0 < s.size := by
  by_contra hz
  unfold dequeue at h
  rw [if_pos (by omega)] at h
  exact absurd h (by simp)

theorem absQueue_eq_nil (s : QueueState) (h : s.size = 0) : absQueue s = [] := by
  simp [absQueue, h]

theorem absQueue_enqueue (v : Int) (s : QueueState) (j : Int) (s' : QueueState)
    (hw : WF s) (h : enqueue v s = some (j, s')) :
    absQueue s' = absQueue s ++ [some v] := by
  have hlt := enqueue_some_size v s j s' h
  rw [enqueue_eq v s hlt hw] at h
  simp only [Option.some.injEq, Prod.mk.injEq] at h
  obtain ⟨hj, hs'⟩ := h
  subst hs'
  unfold absQueue
  show (List.range (s.size + 1)).map _ = _
  rw [List.range_succ, List.map_append]
  congr 1
  · apply List.map_congr_left
    intro i hi
    rw [List.mem_range] at hi
    apply getD_set_ne
    intro he
    have := mod_inj_of_lt s.maxSize s.front s.size i hlt (by omega) he
    omega
  · simp only [List.map_cons, List.map_nil]
    rw [getD_set_self _ _ _ (by rw [hw.data_len]; exact Nat.mod_lt _ hw.cap_pos)]

theorem absQueue_dequeue (s : QueueState) (x : Option Int) (s' : QueueState)
    (hw : WF s) (h : dequeue s = some (x, s')) :
    absQueue s = x :: absQueue s' := by
  have hpos := dequeue_some_size s x s' h
  rw [dequeue_eq s hpos] at h
  simp only [Option.some.injEq, Prod.mk.injEq] at h
  obtain ⟨hx, hs'⟩ := h
  subst hs'
  unfold absQueue
  have hsz : s.size = s.size - 1 + 1 := by omega
  conv_lhs => rw [hsz]
  rw [List.range_succ_eq_map, List.map_cons, List.map_map]
  congr 1
  · rw [Nat.add_zero, Nat.mod_eq_of_lt hw.front_lt]
    exact hx
  · apply List.map_congr_left
    intro i hi
    rw [List.mem_range] at hi
    show s.data.getD ((s.front + (i + 1)) % s.maxSize) none = _
    rw [Nat.mod_add_mod, show s.front + 1 + i = s.front + (i + 1) from by ring]
    rw [getD_set_ne]
    intro he
    have h0 : (s.front + 0) % s.maxSize = (s.front + (i + 1)) % s.maxSize := by
      rw [Nat.add_zero, Nat.mod_eq_of_lt hw.front_lt]
      exact he
    have := mod_inj_of_lt s.maxSize s.front 0 (i + 1) (by have := hw.cap_pos; omega)
      (by have := hw.size_le; omega) h0
    omega

theorem run_spec (ops : List Op) : ∀ (s : QueueState) (outs : List (Option Int))
    (t : QueueState), WF s → run s ops = some (outs, t) →
    WF t ∧ outs ++ absQueue t = absQueue s ++ (enqInputs ops).map some := by
  induction ops with
  | nil =>
    intro s outs t hw h
    simp only [run, Option.some.injEq, Prod.mk.injEq] at h
    obtain ⟨h1, h2⟩ := h
    subst h1
    subst h2
    simp [enqInputs]
    exact hw
  | cons op ops ih =>
    intro s outs t hw h
    cases op with
    | enq v =>
      cases he : enqueue v s with
      | none => simp [run, he] at h
      | some p =>
        obtain ⟨j, s'⟩ := p
        simp only [run, he] at h
        obtain ⟨hwt, habs⟩ := ih s' outs t (wf_enqueue v s j s' hw he) h
        refine ⟨hwt, ?_⟩
        rw [habs, absQueue_enqueue v s j s' hw he]
        simp [enqInputs]
    | deq =>
      cases he : dequeue s with
      | none => simp [run, he] at h
      | some p =>
        obtain ⟨x, s'⟩ := p
        simp only [run, he] at h
        cases hr : run s' ops with
        | none => rw [hr] at h; simp at h
        | some q =>
          obtain ⟨outs', t'⟩ := q
          rw [hr] at h
          simp only [Option.map_some', Option.some.injEq, Prod.mk.injEq] at h
          obtain ⟨h1, h2⟩ := h
          subst h1
          subst h2
          obtain ⟨hwt, habs⟩ := ih s' outs' t' (wf_dequeue s x s' hw he) hr
          refine ⟨hwt, ?_⟩
          rw [absQueue_dequeue s x s' hw he]
          simp only [List.cons_append, habs, enqInputs]
    | peekF => exact ih s outs t hw h
    | peekR => exact ih s outs t hw h
    | emptyQ => exact ih s outs t hw h
    | fullQ => exact ih s outs t hw h
    | sizeQ => exact ih s outs t hw h

theorem initializeQueue_size_zero (c : Int) (s : QueueState)
    (h : initializeQueue c = some s) : s.size = 0 := by
  unfold initializeQueue at h
  by_cases hc : c ≤ 0 ∨ 20 < c
  · rw [if_pos hc] at h
    exact absurd h (by simp)
  · rw [if_neg hc] at h
    injection h with h
    subst h
    rfl

/-- C1: FIFO law. For every interleaving of enqueue and dequeue operations
on an initialized queue in which dequeue is only invoked when the queue is
non-empty and enqueue only when it is not full (certified by `run`
returning `some`), the sequence of cells returned by the successive
dequeues is exactly the prefix, of matching length, of the sequence of
values passed to enqueue in call order. -/
theorem claim1_fifo_law (c : Int) (s₀ t : QueueState) (ops : List Op)
    (outs : List (Option Int))
    (hinit : initializeQueue c = some s₀)
    (hrun : run s₀ ops = some (outs, t)) :
    outs = ((enqInputs ops).map some).take outs.length := by
  have hw := wf_initializeQueue c s₀ hinit
  obtain ⟨hwt, habs⟩ := run_spec ops s₀ outs t hw hrun
  rw [absQueue_eq_nil s₀ (initializeQueue_size_zero c s₀ hinit),
    List.nil_append] at habs
  rw [← habs]
  exact (List.take_left outs (absQueue t)).symm

/-- Witness for C1 at capacity 2 with the interleaving
enq 10, enq 20, deq, enq 30, deq, deq: the dequeued values are 10, 20, 30,
the enqueue inputs in call order. -/
theorem claim1_fifo_law_witness :
    initializeQueue 2 = some ⟨[none, none], 0, -1, 0, 2⟩ ∧
    run ⟨[none, none], 0, -1, 0, 2⟩
        [Op.enq 10, Op.enq 20, Op.deq, Op.enq 30, Op.deq, Op.deq] =
      some ([some 10, some 20, some 30], ⟨[none, none], 1, 0, 0, 2⟩) ∧
    [some 10, some 20, some 30] =
      ((enqInputs [Op.enq 10, Op.enq 20, Op.deq, Op.enq 30, Op.deq, Op.deq]).map
        some).take (List.length [some 10, some 20, some 30]) :=
  ⟨by decide, by decide,
    claim1_fifo_law 2 ⟨[none, none], 0, -1, 0, 2⟩ ⟨[none, none], 1, 0, 0, 2⟩
      [Op.enq 10, Op.enq 20, Op.deq, Op.enq 30, Op.deq, Op.deq]
      [some 10, some 20, some 30] (by decide) (by decide)⟩

theorem rear_succ_mod (s : QueueState) (hw : WF s) :
    (s.rear + 1) % (s.maxSize : Int) = (((s.front + s.size) % s.maxSize : Nat) : Int) := by
  rcases hw.rear_eq with hr | ⟨hr, hsz, hf⟩
  · rw [hr]
    have hcast : ((((s.front + s.size + s.maxSize - 1) % s.maxSize : Nat) : Int) + 1)
        = (((s.front + s.size + s.maxSize - 1) % s.maxSize + 1 : Nat) : Int) := by
      push_cast
      ring
    rw [hcast, ← Int.natCast_mod, succ_mod_eq _ _ _ hw.cap_pos]
  · rw [hr, hsz, hf]
    simp

/-- C2: enqueue success postcondition. On a reachable queue that is not
full, `enqueue value` reports the index `(rear + 1) mod capacity` (which
is `front` when the queue was empty), stores the value in exactly that
cell, increments `size` by one, leaves `front` and every other cell
unchanged, and moves `rear` to that index. -/
theorem claim2_enqueue_success (v : Int) (s : QueueState) (hr : Reachable s)
    (hlt : s.size < s.maxSize) :
    ∃ s', enqueue v s = some ((s.rear + 1) % (s.maxSize : Int), s') ∧
      (s.size = 0 → (s.rear + 1) % (s.maxSize : Int) = (s.front : Int)) ∧
      s'.data.getD ((s.rear + 1) % (s.maxSize : Int)).toNat none = some v ∧
      s'.size = s.size + 1 ∧
      s'.front = s.front ∧
      s'.rear = (s.rear + 1) % (s.maxSize : Int) ∧
      ∀ k : Nat, k ≠ ((s.rear + 1) % (s.maxSize : Int)).toNat →
        s'.data.getD k none = s.data.getD k none := by
  have hw := reachable_wf s hr
  have hj := rear_succ_mod s hw
  rw [hj, Int.toNat_natCast]
  refine ⟨_, enqueue_eq v s hlt hw, ?_, ?_, rfl, rfl, rfl, ?_⟩
  · intro h0
    simp [h0, Nat.mod_eq_of_lt hw.front_lt]
  · show (s.data.set _ _).getD _ none = some v
    exact getD_set_self _ _ _ (by rw [hw.data_len]; exact Nat.mod_lt _ hw.cap_pos)
  · intro k hk
    show (s.data.set _ _).getD k none = s.data.getD k none
    exact getD_set_ne _ _ _ _ (fun he => hk he.symm)

/-- Witness for C2: enqueueing 7 into a fresh capacity-2 queue stores it
at index 0, the reported position. -/
theorem claim2_enqueue_success_witness :
    ∃ s', enqueue 7 ⟨[none, none], 0, -1, 0, 2⟩ = some (0, s') ∧
      s'.data.getD 0 none = some 7 ∧ s'.size = 1 ∧ s'.front = 0 ∧
      s'.rear = 0 := by
  obtain ⟨s', h1, h2, h3, h4, h5, h6, h7⟩ :=
    claim2_enqueue_success 7 ⟨[none, none], 0, -1, 0, 2⟩
      ⟨2, ⟨[none, none], 0, -1, 0, 2⟩, [], by decide, rfl⟩ (by decide)
  refine ⟨s', ?_, ?_, h4, h5, ?_⟩
  · simpa using h1
  · simpa using h3
  · simpa using h6

/-- C3: dequeue success postcondition. On a reachable non-empty queue,
`dequeue` returns the (occupied) cell at `front`, clears exactly that
cell, advances `front` to `(front + 1) mod capacity` and decrements
`size` by exactly one. -/
theorem claim3_dequeue_success (s : QueueState) (hr : Reachable s)
    (hpos : 0 < s.size) :
    ∃ s', dequeue s = some (s.data.getD s.front none, s') ∧
      (∃ v : Int, s.data.getD s.front none = some v) ∧
      s'.data.getD s.front none = none ∧
      s'.front = (s.front + 1) % s.maxSize ∧
      s'.size + 1 = s.size ∧
      ∀ k : Nat, k ≠ s.front → s'.data.getD k none = s.data.getD k none := by
  have hw := reachable_wf s hr
  refine ⟨_, dequeue_eq s hpos, ?_, ?_, rfl,
    by show s.size - 1 + 1 = s.size; omega, ?_⟩
  · have hne : s.data.getD s.front none ≠ none := by
      rw [hw.occ]
      exact ⟨0, hpos, by rw [Nat.add_zero, Nat.mod_eq_of_lt hw.front_lt]⟩
    cases hval : s.data.getD s.front none with
    | none => exact absurd hval hne
    | some v => exact ⟨v, rfl⟩
  · show (s.data.set s.front none).getD s.front none = none
    exact getD_set_self _ _ _ (by rw [hw.data_len]; exact hw.front_lt)
  · intro k hk
    show (s.data.set s.front none).getD k none = s.data.getD k none
    exact getD_set_ne _ _ _ _ (fun he => hk he.symm)

/-- Witness for C3: dequeuing the capacity-2 queue holding 1 then 2
returns 1, clears cell 0, keeps cell 1, and moves front to 1. -/
theorem claim3_dequeue_success_witness :
    ∃ s', dequeue ⟨[some 1, some 2], 0, 1, 2, 2⟩ = some (some 1, s') ∧
      s'.front = 1 ∧ s'.size + 1 = 2 ∧ s'.data.getD 0 none = none ∧
      s'.data.getD 1 none = some 2 := by
  obtain ⟨s', h1, h2, h3, h4, h5, h6⟩ :=
    claim3_dequeue_success ⟨[some 1, some 2], 0, 1, 2, 2⟩
      ⟨2, ⟨[none, none], 0, -1, 0, 2⟩, [Op.enq 1, Op.enq 2], by decide, by decide⟩
      (by decide)
  refine ⟨s', by simpa using h1, by simpa using h4, h5, by simpa using h3, ?_⟩
  simpa using h6 1 (by decide)

/-- C4: full-queue rejection with atomicity. On a reachable queue,
`enqueue` fails exactly when `size = maxSize`, and on that failure the
applied step leaves the state identical. -/
theorem claim4_full_rejection (v : Int) (s : QueueState) (hr : Reachable s) :
    (enqueue v s = none ↔ s.size = s.maxSize) ∧
    (s.size = s.maxSize → stepTotal (Op.enq v) s = s) := by
  have hw := reachable_wf s hr
  have hiff : enqueue v s = none ↔ s.maxSize ≤ s.size := by
    unfold enqueue
    by_cases hc : s.maxSize ≤ s.size
    · simp [hc]
    · simp [hc]
  constructor
  · rw [hiff]
    have := hw.size_le
    omega
  · intro he
    have hn : enqueue v s = none := hiff.mpr (by omega)
    simp [stepTotal, hn]

/-- Witness for C4: a full capacity-2 queue (after enqueueing 1 and 2)
rejects a further enqueue of 9 and is left unchanged. -/
theorem claim4_full_rejection_witness :
    (enqueue 9 ⟨[some 1, some 2], 0, 1, 2, 2⟩ = none ↔ (2 : Nat) = 2) ∧
    ((2 : Nat) = 2 →
      stepTotal (Op.enq 9) ⟨[some 1, some 2], 0, 1, 2, 2⟩ =
        ⟨[some 1, some 2], 0, 1, 2, 2⟩) :=
  claim4_full_rejection 9 ⟨[some 1, some 2], 0, 1, 2, 2⟩
    ⟨2, ⟨[none, none], 0, -1, 0, 2⟩, [Op.enq 1, Op.enq 2], by decide, by decide⟩

/-- C5: empty-queue rejection and pure peeks. `dequeue`, `getFront` and
`getRear` fail exactly when `size = 0` and never mutate on failure; when
the queue is non-empty, `getFront` reports the cell at `front` and
`getRear` the cell at `rear`, and neither peek ever changes the state. -/
theorem claim5_empty_rejection (s : QueueState) :
    (dequeue s = none ↔ s.size = 0) ∧
    (getFront s = none ↔ s.size = 0) ∧
    (getRear s = none ↔ s.size = 0) ∧
    (0 < s.size → getFront s = some (s.data.getD s.front none) ∧
      getRear s = some (s.data.getD s.rear.toNat none)) ∧
    stepTotal Op.peekF s = s ∧
    stepTotal Op.peekR s = s ∧
    (s.size = 0 → stepTotal Op.deq s = s) := by
  refine ⟨?_, ?_, ?_, ?_, rfl, rfl, ?_⟩
  · unfold dequeue
    by_cases hc : s.size = 0 <;> simp [hc]
  · unfold getFront
    by_cases hc : s.size = 0 <;> simp [hc]
  · unfold getRear
    by_cases hc : s.size = 0 <;> simp [hc]
  · intro hpos
    constructor
    · unfold getFront
      rw [if_neg (by omega)]
    · unfold getRear
      rw [if_neg (by omega)]
  · intro h0
    have hn : dequeue s = none := by
      unfold dequeue
      rw [if_pos h0]
    simp [stepTotal, hn]

/-- Witness for C5 at the capacity-1 queue holding 5: no failure, peeks
report the value 5 at front and rear, and the state is untouched. -/
theorem claim5_empty_rejection_witness :
    (dequeue ⟨[some 5], 0, 0, 1, 1⟩ = none ↔ (1 : Nat) = 0) ∧
    (getFront ⟨[some 5], 0, 0, 1, 1⟩ = none ↔ (1 : Nat) = 0) ∧
    (getRear ⟨[some 5], 0, 0, 1, 1⟩ = none ↔ (1 : Nat) = 0) ∧
    ((0 : Nat) < 1 → getFront ⟨[some 5], 0, 0, 1, 1⟩ = some (some 5) ∧
      getRear ⟨[some 5], 0, 0, 1, 1⟩ = some (some 5)) ∧
    stepTotal Op.peekF ⟨[some 5], 0, 0, 1, 1⟩ = ⟨[some 5], 0, 0, 1, 1⟩ ∧
    stepTotal Op.peekR ⟨[some 5], 0, 0, 1, 1⟩ = ⟨[some 5], 0, 0, 1, 1⟩ ∧
    ((1 : Nat) = 0 → stepTotal Op.deq ⟨[some 5], 0, 0, 1, 1⟩ =
      ⟨[some 5], 0, 0, 1, 1⟩) :=
  claim5_empty_rejection ⟨[some 5], 0, 0, 1, 1⟩

/-- C6: reachable-state invariant. Every state reachable from a
successful initialize by any sequence of operations keeps
`0 ≤ size ≤ capacity`, keeps `size` equal to the number of occupied
(non-`null`) cells, and keeps `rear = (front + size - 1) mod capacity`
whenever `size > 0`. -/
theorem claim6_reachable_invariant (s : QueueState) (hr : Reachable s) :
    0 ≤ s.size ∧ s.size ≤ s.maxSize ∧ occupiedCount s = s.size ∧
    (0 < s.size → s.rear = (((s.front + s.size - 1) % s.maxSize : Nat) : Int)) := by
  have hw := reachable_wf s hr
  refine ⟨Nat.zero_le _, hw.size_le, hw.count_eq, ?_⟩
  intro hpos
  rcases hw.rear_eq with hrr | ⟨_, hsz, _⟩
  · rw [hrr]
    congr 1
    rw [show s.front + s.size + s.maxSize - 1 = s.front + s.size - 1 + s.maxSize from by
      have := hw.cap_pos
      omega, Nat.add_mod_right]
  · omega

/-- Witness for C6 at the full capacity-2 queue reached by enqueueing
1 then 2: size 2 within capacity, two occupied cells, and
`rear = (0 + 2 - 1) mod 2 = 1`. -/
theorem claim6_reachable_invariant_witness :
    (0 : Nat) ≤ 2 ∧ (2 : Nat) ≤ 2 ∧
    occupiedCount ⟨[some 1, some 2], 0, 1, 2, 2⟩ = 2 ∧
    ((0 : Nat) < 2 →
      (⟨[some 1, some 2], 0, 1, 2, 2⟩ : QueueState).rear =
        (((0 + 2 - 1) % 2 : Nat) : Int)) :=
  claim6_reachable_invariant ⟨[some 1, some 2], 0, 1, 2, 2⟩
    ⟨2, ⟨[none, none], 0, -1, 0, 2⟩, [Op.enq 1, Op.enq 2], by decide, by decide⟩

/-- C7: wraparound scenario at capacity 3. Three enqueues fill the queue;
dequeue returns 1 and moves front to index 1; enqueue 4 succeeds, is
stored at index 0 (wrapping), and the queue is full again. -/
theorem claim7_wraparound :
    initializeQueue 3 = some ⟨[none, none, none], 0, -1, 0, 3⟩ ∧
    isFull (runAll [Op.enq 1, Op.enq 2, Op.enq 3] ⟨[none, none, none], 0, -1, 0, 3⟩) = true ∧
    dequeue (runAll [Op.enq 1, Op.enq 2, Op.enq 3] ⟨[none, none, none], 0, -1, 0, 3⟩) =
      some (some 1,
        runAll [Op.enq 1, Op.enq 2, Op.enq 3, Op.deq] ⟨[none, none, none], 0, -1, 0, 3⟩) ∧
    (runAll [Op.enq 1, Op.enq 2, Op.enq 3, Op.deq] ⟨[none, none, none], 0, -1, 0, 3⟩).front = 1 ∧
    enqueue 4 (runAll [Op.enq 1, Op.enq 2, Op.enq 3, Op.deq] ⟨[none, none, none], 0, -1, 0, 3⟩) =
      some (0,
        runAll [Op.enq 1, Op.enq 2, Op.enq 3, Op.deq, Op.enq 4]
          ⟨[none, none, none], 0, -1, 0, 3⟩) ∧
    (runAll [Op.enq 1, Op.enq 2, Op.enq 3, Op.deq, Op.enq 4]
      ⟨[none, none, none], 0, -1, 0, 3⟩).data.getD 0 none = some 4 ∧
    isFull (runAll [Op.enq 1, Op.enq 2, Op.enq 3, Op.deq, Op.enq 4]
      ⟨[none, none, none], 0, -1, 0, 3⟩) = true := by
  decide

/-- C8: capacity boundary. `initializeQueue 0` and `initializeQueue (-1)`
fail (as does every capacity `≤ 0`), while `initializeQueue 1` yields a
single-slot queue: one enqueue stores at index 0 and makes it full, and
dequeuing returns that value and makes it empty again. -/
theorem claim8_capacity_boundary :
    initializeQueue 0 = none ∧
    initializeQueue (-1) = none ∧
    (∀ c : Int, c ≤ 0 → initializeQueue c = none) ∧
    (∃ s₁, initializeQueue 1 = some s₁ ∧ isEmpty s₁ = true ∧
      currentSize s₁ = (0, 1) ∧
      ∀ v : Int, ∃ s₂, enqueue v s₁ = some (0, s₂) ∧ isFull s₂ = true ∧
        ∃ s₃, dequeue s₂ = some (some v, s₃) ∧ isEmpty s₃ = true) := by
  refine ⟨by decide, by decide, ?_,
    ⟨⟨[none], 0, -1, 0, 1⟩, by decide, by decide, by decide, ?_⟩⟩
  · intro c hc
    unfold initializeQueue
    rw [if_pos (Or.inl hc)]
  · intro v
    refine ⟨⟨[some v], 0, 0, 1, 1⟩, ?_, rfl, ⟨[none], 0, 0, 0, 1⟩, ?_, rfl⟩
    · simp [enqueue]
    · simp [dequeue]

/-- Witness for C8: the general rejection clause applied at capacity -5. -/
theorem claim8_capacity_boundary_witness : initializeQueue (-5) = none :=
  claim8_capacity_boundary.2.2.1 (-5) (by decide)

/-- C9 counterexample: on a capacity-1 queue, enqueue 5 then dequeue
empties the queue, yet `rear` stays at its numeric value 0 instead of
returning to the sentinel -1: the code never resets `rear`. -/
theorem claim9_counterexample :
    initializeQueue 1 = some ⟨[none], 0, -1, 0, 1⟩ ∧
    runAll [Op.enq 5] ⟨[none], 0, -1, 0, 1⟩ = ⟨[some 5], 0, 0, 1, 1⟩ ∧
    (⟨[some 5], 0, 0, 1, 1⟩ : QueueState).size = 1 ∧
    dequeue ⟨[some 5], 0, 0, 1, 1⟩ = some (some 5, ⟨[none], 0, 0, 0, 1⟩) ∧
    (⟨[none], 0, 0, 0, 1⟩ : QueueState).size = 0 ∧
    (⟨[none], 0, 0, 0, 1⟩ : QueueState).rear = 0 ∧ (0 : Int) ≠ -1 := by
  decide

/-- C9 amended: dequeuing the last element leaves `rear` at its previous
numeric (non-negative) value; it is never reset to the sentinel -1. -/
theorem claim9_rear_retained (s : QueueState) (hr : Reachable s)
    (h1 : s.size = 1) :
    ∃ s', dequeue s = some (s.data.getD s.front none, s') ∧ s'.size = 0 ∧
      s'.rear = s.rear ∧ 0 ≤ s.rear ∧ s.rear ≠ -1 := by
  have hw := reachable_wf s hr
  rw [dequeue_eq s (by omega)]
  refine ⟨_, rfl, by show s.size - 1 = 0; omega, rfl, ?_, ?_⟩
  · rcases hw.rear_eq with hrr | ⟨_, hsz, _⟩
    · rw [hrr]
      exact Int.natCast_nonneg _
    · omega
  · rcases hw.rear_eq with hrr | ⟨_, hsz, _⟩
    · rw [hrr]
      intro hcontra
      omega
    · omega

/-- Witness for C9 amended: the capacity-1 queue holding one element. -/
theorem claim9_rear_retained_witness :
    Reachable ⟨[some 5], 0, 0, 1, 1⟩ ∧
    (⟨[some 5], 0, 0, 1, 1⟩ : QueueState).size = 1 ∧
    ∃ s', dequeue ⟨[some 5], 0, 0, 1, 1⟩ =
        some ((⟨[some 5], 0, 0, 1, 1⟩ : QueueState).data.getD 0 none, s') ∧
      s'.size = 0 ∧ s'.rear = 0 ∧ (0 : Int) ≤ 0 ∧ (0 : Int) ≠ -1 :=
  ⟨⟨1, ⟨[none], 0, -1, 0, 1⟩, [Op.enq 5], by decide, by decide⟩, rfl,
    claim9_rear_retained ⟨[some 5], 0, 0, 1, 1⟩
      ⟨1, ⟨[none], 0, -1, 0, 1⟩, [Op.enq 5], by decide, by decide⟩ rfl⟩

/-- C10 (implicit): on the uninitialized state (at creation or after
`resetQueue`, where `maxSize = 0` and `size = 0`), enqueueing any value is
rejected by the full-queue check (`0 >= 0`) and the state is unchanged, so
nothing can be stored before a successful initialize. -/
theorem claim10_uninitialized_enqueue (v : Int) :
    enqueue v initialState = none ∧
    enqueue v resetQueue = none ∧
    stepTotal (Op.enq v) initialState = initialState ∧
    stepTotal (Op.enq v) resetQueue = resetQueue :=
  ⟨rfl, rfl, rfl, rfl⟩

/-- Witness for C10 at the value 3. -/
theorem claim10_uninitialized_enqueue_witness :
    enqueue 3 initialState = none :=
  (claim10_uninitialized_enqueue 3).1

end QueueSim
